import Mathlib

/-!
Shallow embedding of the dataset partitioning and validation helpers of
`helper_function_dl.py` (`split_image_data` and
`checks_and_remove_invalid_images`), together with proofs of the testable
properties stated for them.

The filesystem is modelled as a flat association list from paths (lists of
path components) to file contents.  Directories are implicit: a path counts
as a directory when some file lies strictly below it, which matches what
`os.listdir` and `os.path.isdir` observe on the trees these helpers take.
Reads (`os.listdir`, `os.path.isdir`, `Image.open`) during a validator run
are evaluated against the tree at call entry: every file path is listed and
visited exactly once, and `os.remove` targets only already-visited files in
already-visited class folders, so the snapshot coincides with the live tree
at each read.  Python's `train_ratio` float is modelled as an exact rational
and `random.shuffle` as an arbitrary caller-chosen reordering of the list.
-/

/-- A filesystem path, as a list of path components. -/
abbrev FPath := List String

/-- A filesystem: an association list from file paths to file contents. -/
abbrev FS := List (FPath × String)

/-- Component-wise test that path `a` is an initial segment of path `b`. -/
def isPre : FPath → FPath → Bool
  | [], _ => true
  | _ :: _, [] => false
  | a :: as, b :: bs => decide (a = b) && isPre as bs

/-- Content of the file at `p`, if any (first matching entry). -/
def FS.find : FS → FPath → Option String
  | [], _ => none
  | e :: es, p => if e.1 = p then some e.2 else FS.find es p

/-- Embeds `os.remove`: delete the file at `p`. -/
def FS.remove : FS → FPath → FS
  | [], _ => []
  | e :: es, p => if e.1 = p then FS.remove es p else e :: FS.remove es p

/-- Write content `c` at path `p`, overwriting any existing file there
(the destination side of `shutil.copy`). -/
def FS.insert (fs : FS) (p : FPath) (c : String) : FS := FS.remove fs p ++ [(p, c)]

/-- The set of file paths present in the filesystem. -/
def FS.paths (fs : FS) : List FPath := fs.map (·.1)

/-- Embeds `os.listdir p`: names of the immediate entries below `p`,
without duplicates. -/
def listdir (fs : FS) (p : FPath) : List String :=
  (fs.filterMap (fun e => if isPre p e.1 then (e.1.drop p.length).head? else none)).dedup

/-- Embeds `os.path.isdir p`: some file lies strictly below `p`. -/
def isdir (fs : FS) (p : FPath) : Bool :=
  fs.any (fun e => isPre p e.1 && decide (p.length < e.1.length))

/-- Python `int()` applied to an exact rational: truncation toward zero. -/
def pyInt (q : ℚ) : ℤ := if 0 ≤ q then ⌊q⌋ else ⌈q⌉

/-- Python slice `l[:k]`, including negative-index semantics. -/
def pySliceTo (l : List String) (k : ℤ) : List String :=
  if 0 ≤ k then l.take k.toNat else l.take ((l.length : ℤ) + k).toNat

/-- Python slice `l[k:]`, including negative-index semantics. -/
def pySliceFrom (l : List String) (k : ℤ) : List String :=
  if 0 ≤ k then l.drop k.toNat else l.drop ((l.length : ℤ) + k).toNat

/-- Index of the last occurrence of `c` in `s`, or `-1` (Python `str.rfind`). -/
def rfindIdx (c : Char) (s : List Char) : ℤ :=
  match s.reverse.findIdx? (fun x => decide (x = c)) with
  | none => -1
  | some i => (s.length : ℤ) - 1 - (i : ℤ)

/-- Embeds `os.path.splitext` (posix flavor): split off the extension at the
last dot, except when every character between the last path separator and
that dot is itself a dot (then there is no extension). -/
def splitext (s : String) : String × String :=
  let cs := s.data
  let sepIdx := rfindIdx '/' cs
  let dotIdx := rfindIdx '.' cs
  if decide (sepIdx < dotIdx) &&
      ((cs.take dotIdx.toNat).drop (sepIdx + 1).toNat).any (fun ch => decide (ch ≠ '.')) then
    (⟨cs.take dotIdx.toNat⟩, ⟨cs.drop dotIdx.toNat⟩)
  else (s, "")

/-- Python `str.lower()`: lowercase every character. -/
def strLower (s : String) : String := ⟨s.data.map Char.toLower⟩

/-- Embeds `os.path.splitext(name)[-1].lower()` (line 163 of the source). -/
def pyExt (name : String) : String := strLower (splitext name).2

/-- Python `s.strip(".")`: drop leading and trailing dots. -/
def pyStrip (s : String) : String :=
  ⟨((s.data.dropWhile (fun ch => decide (ch = '.'))).reverse.dropWhile
      (fun ch => decide (ch = '.'))).reverse⟩

/-- Lines 42-45 of `split_image_data`: shuffle a class's file list and split
it at index `int(total_files * train_ratio)`.  The shuffle is an arbitrary
caller-chosen reordering (Python draws it from unseeded global randomness);
it may depend on the class name. -/
def classTrainTest (shuffle : String → List String → List String) (sub : String)
    (files : List String) (frac : ℚ) : List String × List String :=
  let total_files : ℕ := files.length
  let shuffled := shuffle sub files
  let split_index : ℤ := pyInt ((total_files : ℚ) * frac)
  (pySliceTo shuffled split_index, pySliceFrom shuffled split_index)

/-- Embeds `shutil.copy src dst`.  The source file was always just listed by
the caller; a source path that is not a plain file is modelled as a no-op. -/
def copyFile (fs : FS) (src dst : FPath) : FS :=
  match FS.find fs src with
  | some c => FS.insert fs dst c
  | none => fs

/-- The loop body of `split_image_data` for one root entry `sub` (lines
33-55): when `sub` is a directory with at least one file, shuffle and split
its files, then copy them into `train_dir/<sub>` and `test_dir/<sub>`. -/
def splitStep (shuffle : String → List String → List String)
    (source_dir train_dir test_dir : FPath) (frac : ℚ) (acc : FS) (sub : String) : FS :=
  if isdir acc (source_dir ++ [sub]) then
    if (listdir acc (source_dir ++ [sub])).length = 0 then acc
    else
      ((classTrainTest shuffle sub (listdir acc (source_dir ++ [sub])) frac).2.foldl
        (fun a f => copyFile a (source_dir ++ [sub, f]) (test_dir ++ [sub, f]))
        ((classTrainTest shuffle sub (listdir acc (source_dir ++ [sub])) frac).1.foldl
          (fun a f => copyFile a (source_dir ++ [sub, f]) (train_dir ++ [sub, f])) acc))
  else acc

/-- Embeds `split_image_data(source_dir, train_dir, test_dir, train_ratio)`
(lines 10-57): for each subdirectory of `source_dir`, shuffle its files,
split them at `int(total * ratio)`, and copy the first part into
`train_dir/<class>` and the rest into `test_dir/<class>`.  Empty class
directories are skipped; `os.makedirs` is invisible in the flat model. -/
def split_image_data (shuffle : String → List String → List String)
    (source_dir train_dir test_dir : FPath) (frac : ℚ) (fs : FS) : FS :=
  (listdir fs source_dir).foldl (splitStep shuffle source_dir train_dir test_dir frac) fs

/-- The image-decoding capability used by the validator (PIL), abstracted as
an oracle on file contents: `openFormat` returns the intrinsic format of the
decoded image (as `Image.open` followed by reading `img.format`, `none` when
opening raises), and `verify` reports whether `img.verify()` succeeds. -/
structure ImgLib where
  openFormat : String → Option String
  verify : String → Bool

/-- Lines 166-178 of the source: open the image, lowercase its intrinsic
format, require the format to be a member of the dot-stripped valid
extension set, then verify structural integrity.  Any failure (including a
missing or unreadable file) makes the file invalid. -/
def decodeOk (lib : ImgLib) (ve : List String) (content : Option String) : Bool :=
  match content with
  | none => false
  | some c =>
    match lib.openFormat c with
    | none => false
    | some fmt => decide (strLower fmt ∈ ve.map pyStrip) && lib.verify c

/-- The per-file body of the validator loop (lines 162-190): files whose
extension is outside `ve`, and files whose decode pipeline fails, are
appended to the report and deleted when `remove` is set. -/
def processFile (lib : ImgLib) (ve : List String) (remove : Bool) (base : FPath)
    (cls : String) (fs0 : FS) (acc : List (String × String) × FS) (fname : String) :
    List (String × String) × FS :=
  if pyExt fname ∈ ve then
    if decodeOk lib ve (FS.find fs0 (base ++ [cls, fname])) then acc
    else (acc.1 ++ [(fname, cls)],
      if remove then FS.remove acc.2 (base ++ [cls, fname]) else acc.2)
  else (acc.1 ++ [(fname, cls)],
    if remove then FS.remove acc.2 (base ++ [cls, fname]) else acc.2)

/-- The loop body of the validator for one class folder (lines 161-190). -/
def classStep (lib : ImgLib) (ve : List String) (remove : Bool) (base : FPath)
    (fs0 : FS) (acc : List (String × String) × FS) (cls : String) :
    List (String × String) × FS :=
  (listdir fs0 (base ++ [cls])).foldl (processFile lib ve remove base cls fs0) acc

/-- Embeds `checks_and_remove_invalid_images(base_directory,
valid_extensions, remove)` (lines 136-193).  The set comprehension on line
155 rebinds the local name to a fresh lowercased set, embedded here as
`valid_extensions.map strLower`. -/
def checks_and_remove_invalid_images (lib : ImgLib) (base_directory : FPath)
    (valid_extensions : List String) (remove : Bool) (fs : FS) :
    List (String × String) × FS :=
  ((listdir fs base_directory).filter (fun d => isdir fs (base_directory ++ [d]))).foldl
    (classStep lib (valid_extensions.map strLower) remove base_directory fs)
    ([], fs)

/-- The default `valid_extensions` argument of the validator. -/
def defaultExts : List String := [".jpg", ".jpeg", ".png", ".gif", ".bmp"]

/-- The flagging condition of the validator loop: extension outside the
valid set, or the decode pipeline fails. -/
def flagged (lib : ImgLib) (ve : List String) (base : FPath) (cls fname : String)
    (fs0 : FS) : Bool :=
  if pyExt fname ∈ ve then
    !decodeOk lib ve (FS.find fs0 (base ++ [cls, fname]))
  else true

/-- A Python set object, identified by its contents; used to model the
caller-supplied `valid_extensions` argument object. -/
structure PySet where
  elems : List String

/-- The validator call viewed together with the caller's `valid_extensions`
set object: line 155 builds a fresh set and rebinds the local name, and no
statement of the function mutates the argument object, so the call returns
the object with its contents untouched. -/
def checks_with_argObj (lib : ImgLib) (base_directory : FPath) (argSet : PySet)
    (remove : Bool) (fs : FS) : (List (String × String) × FS) × PySet :=
  (checks_and_remove_invalid_images lib base_directory argSet.elems remove fs, argSet)

/-- Two paths such that neither is an initial segment of the other. -/
def FPathIncomp (a b : FPath) : Prop := isPre a b = false ∧ isPre b a = false

/-- The identity reordering, a concrete admissible shuffle. -/
def idShuffle : String → List String → List String := fun _ l => l

/-- A decoder oracle under which the content `"PNGDATA"` opens as a
structurally valid image of intrinsic format `"PNG"`. -/
def libPng : ImgLib :=
  ⟨fun c => if c = "PNGDATA" then some ("PNG") else none, fun _ => true⟩

/-- A one-class tree whose single file claims extension `.jpg` but holds
PNG-format content. -/
def fsPng : FS := [(["b", "cats", "x.jpg"], "PNGDATA")]

/-- A decoder oracle under which every open attempt raises. -/
def libFail : ImgLib := ⟨fun _ => none, fun _ => true⟩

/-- A tree whose root contains only a `.ipynb_checkpoints` directory. -/
def fsCkpt : FS := [(["root", ".ipynb_checkpoints", "a.jpg"], "junk")]

/-- A one-class, one-file source tree. -/
def fsOne : FS := [(["src", "c", "f.jpg"], "X")]

/-- A one-class tree holding a text file. -/
def fsTxt : FS := [(["d", "c", "sample.txt"], "hello")]

/-- A one-class tree holding a corrupt file with a valid extension. -/
def fsJpg : FS := [(["d2", "dogs", "pic.jpg"], "CORRUPT")]

/-- A decoder oracle under which every content opens as a valid image of
intrinsic format `"TIFF"`. -/
def libTiff : ImgLib := ⟨fun _ => some ("TIFF"), fun _ => true⟩

/-- A one-class tree holding a `.png` file whose decoded format is TIFF. -/
def fsTiff : FS := [(["d3", "cats", "im.png"], "TDATA")]

/-- A root tree holding one class directory and one stray non-directory
entry. -/
def fsMix : FS := [(["r", "classA", "a.jpg"], "A"), (["r", "note.txt"], "N")]

/-! ### Path and filesystem lemmas -/

theorem isPre_append_self (a r : FPath) : isPre a (a ++ r) = true := by
  induction a with
  | nil => rfl
  | cons x xs ih => simp [isPre, ih]

theorem isPre_length_le {a b : FPath} (h : isPre a b = true) : a.length ≤ b.length := by
  induction a generalizing b with
  | nil => simp
  | cons x xs ih =>
    cases b with
    | nil => simp [isPre] at h
    | cons y ys =>
      simp only [isPre, Bool.and_eq_true, decide_eq_true_eq] at h
      have := ih h.2
      simp only [List.length_cons]
      omega

theorem isPre_of_le {a b c : FPath} (hac : isPre a c = true) (hbc : isPre b c = true)
    (hl : a.length ≤ b.length) : isPre a b = true := by
  induction a generalizing b c with
  | nil => rfl
  | cons x xs ih =>
    cases b with
    | nil => simp at hl
    | cons y ys =>
      cases c with
      | nil => simp [isPre] at hac
      | cons z zs =>
        simp only [isPre, Bool.and_eq_true, decide_eq_true_eq] at hac hbc ⊢
        refine ⟨hac.1.trans hbc.1.symm, ih hac.2 hbc.2 ?_⟩
        simpa using hl

theorem isPre_pair_false {s d : FPath} (h : FPathIncomp s d) (a b : String) :
    isPre s (d ++ [a, b]) = false := by
  cases hsp : isPre s (d ++ [a, b]) with
  | false => rfl
  | true =>
    exfalso
    rcases Nat.le_total s.length d.length with hl | hl
    · have hsd := isPre_of_le hsp (isPre_append_self d [a, b]) hl
      rw [h.1] at hsd
      exact Bool.noConfusion hsd
    · have hds := isPre_of_le (isPre_append_self d [a, b]) hsp hl
      rw [h.2] at hds
      exact Bool.noConfusion hds

theorem FS.find_remove_ne (fs : FS) {p q : FPath} (h : p ≠ q) :
    FS.find (FS.remove fs q) p = FS.find fs p := by
  induction fs with
  | nil => rfl
  | cons e es ih =>
    by_cases he : e.1 = q
    · simp [FS.remove, he, FS.find, ih, (Ne.symm h : ¬ q = p)]
    · by_cases hp : e.1 = p
      · simp [FS.remove, FS.find, he, hp, h]
      · simp [FS.remove, he, FS.find, hp, ih]

theorem FS.find_remove_self (fs : FS) (q : FPath) : FS.find (FS.remove fs q) q = none := by
  induction fs with
  | nil => rfl
  | cons e es ih =>
    by_cases he : e.1 = q
    · simp [FS.remove, he, ih]
    · simp [FS.remove, he, FS.find, ih]

theorem FS.find_append (a b : FS) (p : FPath) :
    FS.find (a ++ b) p = match FS.find a p with
      | some c => some c
      | none => FS.find b p := by
  induction a with
  | nil => rfl
  | cons e es ih =>
    by_cases he : e.1 = p
    · simp [FS.find, he]
    · simp [FS.find, he, ih]

theorem FS.find_insert_ne (fs : FS) {p q : FPath} (c : String) (h : p ≠ q) :
    FS.find (FS.insert fs q c) p = FS.find fs p := by
  rw [FS.insert, FS.find_append, FS.find_remove_ne fs h]
  cases hf : FS.find fs p with
  | some c2 => rfl
  | none => simp [FS.find, (Ne.symm h : ¬ q = p)]

theorem FS.find_eq_none_iff (fs : FS) (p : FPath) :
    FS.find fs p = none ↔ p ∉ FS.paths fs := by
  induction fs with
  | nil => simp [FS.find, FS.paths]
  | cons e es ih =>
    by_cases he : e.1 = p
    · simp [FS.find, he, FS.paths]
    · have h1 : FS.find (e :: es) p = FS.find es p := by simp [FS.find, he]
      have hne : ¬ p = e.1 := fun hx => he hx.symm
      rw [h1, ih]
      simp [FS.paths, List.mem_cons, hne]

theorem find_copyFile_ne (fs : FS) {src dst p : FPath} (h : p ≠ dst) :
    FS.find (copyFile fs src dst) p = FS.find fs p := by
  unfold copyFile
  cases FS.find fs src with
  | none => rfl
  | some c => exact FS.find_insert_ne fs c h

/-! ### Partitioner lemmas -/

theorem fold_copy_keep (src dst : FPath) (sub : String) (l : List String) (fsa : FS)
    {p : FPath} (hd : ∀ f, isPre src (dst ++ [sub, f]) = false)
    (hp : isPre src p = true) :
    FS.find (l.foldl (fun a f => copyFile a (src ++ [sub, f]) (dst ++ [sub, f])) fsa) p
      = FS.find fsa p := by
  induction l generalizing fsa with
  | nil => rfl
  | cons f fl ih =>
    rw [List.foldl_cons, ih]
    apply find_copyFile_ne
    intro hpd
    rw [hpd, hd f] at hp
    exact Bool.noConfusion hp

theorem splitStep_keeps_source (shuffle : String → List String → List String)
    (source_dir train_dir test_dir : FPath) (frac : ℚ)
    (h1 : FPathIncomp source_dir train_dir) (h2 : FPathIncomp source_dir test_dir)
    (fsa : FS) (sub : String) {p : FPath} (hp : isPre source_dir p = true) :
    FS.find (splitStep shuffle source_dir train_dir test_dir frac fsa sub) p
      = FS.find fsa p := by
  unfold splitStep
  by_cases hdir : isdir fsa (source_dir ++ [sub]) = true
  · rw [if_pos hdir]
    by_cases hlen : (listdir fsa (source_dir ++ [sub])).length = 0
    · rw [if_pos hlen]
    · rw [if_neg hlen]
      rw [fold_copy_keep source_dir test_dir sub _ _ (fun f => isPre_pair_false h2 sub f) hp]
      rw [fold_copy_keep source_dir train_dir sub _ _ (fun f => isPre_pair_false h1 sub f) hp]
  · rw [if_neg hdir]

theorem split_fold_keep (shuffle : String → List String → List String)
    (source_dir train_dir test_dir : FPath) (frac : ℚ)
    (h1 : FPathIncomp source_dir train_dir) (h2 : FPathIncomp source_dir test_dir)
    (subs : List String) (fsa : FS) {p : FPath} (hp : isPre source_dir p = true) :
    FS.find (subs.foldl (splitStep shuffle source_dir train_dir test_dir frac) fsa) p
      = FS.find fsa p := by
  induction subs generalizing fsa with
  | nil => rfl
  | cons s ss ih =>
    rw [List.foldl_cons, ih, splitStep_keeps_source shuffle _ _ _ frac h1 h2 fsa s hp]

theorem take_drop_partition {l : List String} (hnd : l.Nodup) (n : ℕ) :
    (∀ x, x ∈ l.take n → x ∈ l.drop n → False) ∧
    (∀ x, (x ∈ l.take n ∨ x ∈ l.drop n) ↔ x ∈ l) := by
  have happ := List.take_append_drop n l
  constructor
  · intro x hx1 hx2
    have hnd2 : (l.take n ++ l.drop n).Nodup := by rw [happ]; exact hnd
    exact ((List.nodup_append.mp hnd2).2.2) hx1 hx2
  · intro x
    have hmem : x ∈ l.take n ++ l.drop n ↔ x ∈ l := by rw [happ]
    exact List.mem_append.symm.trans hmem

theorem classTrainTest_take_drop (shuffle : String → List String → List String)
    (sub : String) (files : List String) (frac : ℚ) :
    ∃ n, classTrainTest shuffle sub files frac
      = ((shuffle sub files).take n, (shuffle sub files).drop n) := by
  by_cases hk : (0:ℤ) ≤ pyInt ((files.length : ℚ) * frac)
  · refine ⟨(pyInt ((files.length : ℚ) * frac)).toNat, ?_⟩
    simp [classTrainTest, pySliceTo, pySliceFrom, hk]
  · refine ⟨(((shuffle sub files).length : ℤ) + pyInt ((files.length : ℚ) * frac)).toNat, ?_⟩
    simp [classTrainTest, pySliceTo, pySliceFrom, hk]

theorem classTrainTest_partition (shuffle : String → List String → List String)
    (sub : String) (files : List String) (frac : ℚ) (hnd : files.Nodup)
    (hper : List.Perm (shuffle sub files) files) :
    (∀ x, x ∈ (classTrainTest shuffle sub files frac).1 →
        x ∈ (classTrainTest shuffle sub files frac).2 → False) ∧
    (∀ x, (x ∈ (classTrainTest shuffle sub files frac).1 ∨
        x ∈ (classTrainTest shuffle sub files frac).2) ↔ x ∈ files) := by
  have hndS : (shuffle sub files).Nodup := hper.nodup_iff.mpr hnd
  rcases classTrainTest_take_drop shuffle sub files frac with ⟨n, hct⟩
  rw [hct]
  have hp := take_drop_partition hndS n
  exact ⟨hp.1, fun x => (hp.2 x).trans hper.mem_iff⟩

/-- Claim C2: for every class file list and every ratio in [0, 1] (the
boundary ratios included), the partitioner assigns exactly
`floor(count * train_ratio)` files to the train side, the remainder going to
the test side.  The ratio is modelled as an exact rational. -/
theorem split_class_train_count (shuffle : String → List String → List String)
    (sub : String) (files : List String) (frac : ℚ)
    (hper : List.Perm (shuffle sub files) files) (h0 : 0 ≤ frac) (h1 : frac ≤ 1) :
    (classTrainTest shuffle sub files frac).1.length
        = (⌊(files.length : ℚ) * frac⌋).toNat ∧
    (classTrainTest shuffle sub files frac).2.length
        = files.length - (⌊(files.length : ℚ) * frac⌋).toNat := by
  have hq : (0:ℚ) ≤ (files.length : ℚ) * frac := mul_nonneg (Nat.cast_nonneg _) h0
  have hk : pyInt ((files.length : ℚ) * frac) = ⌊(files.length : ℚ) * frac⌋ := if_pos hq
  have hk0 : (0:ℤ) ≤ ⌊(files.length : ℚ) * frac⌋ := Int.floor_nonneg.mpr hq
  have hkle : ⌊(files.length : ℚ) * frac⌋ ≤ (files.length : ℤ) := by
    have hle : (files.length : ℚ) * frac ≤ (files.length : ℚ) := by
      calc (files.length : ℚ) * frac ≤ (files.length : ℚ) * 1 :=
        mul_le_mul_of_nonneg_left h1 (Nat.cast_nonneg _)
      _ = (files.length : ℚ) := mul_one _
    calc ⌊(files.length : ℚ) * frac⌋ ≤ ⌊(files.length : ℚ)⌋ := Int.floor_le_floor hle
    _ = (files.length : ℤ) := Int.floor_natCast _
  have hlen : (shuffle sub files).length = files.length := hper.length_eq
  have htone : (⌊(files.length : ℚ) * frac⌋).toNat ≤ files.length := by omega
  have hct : classTrainTest shuffle sub files frac
      = ((shuffle sub files).take (⌊(files.length : ℚ) * frac⌋).toNat,
         (shuffle sub files).drop (⌊(files.length : ℚ) * frac⌋).toNat) := by
    simp [classTrainTest, pySliceTo, pySliceFrom, hk, hk0]
  rw [hct]
  constructor
  · simp [List.length_take, hlen, min_eq_left htone]
  · simp [List.length_drop, hlen]

/-! ### Validator lemmas -/

theorem listdir_nodup (fs : FS) (p : FPath) : (listdir fs p).Nodup :=
  List.nodup_dedup _

theorem processFile_eq (lib : ImgLib) (ve : List String) (remove : Bool) (base : FPath)
    (cls : String) (fs0 : FS) (acc : List (String × String) × FS) (fname : String) :
    processFile lib ve remove base cls fs0 acc fname =
      if flagged lib ve base cls fname fs0 = true then
        (acc.1 ++ [(fname, cls)],
          if remove then FS.remove acc.2 (base ++ [cls, fname]) else acc.2)
      else acc := by
  unfold processFile flagged
  by_cases hext : pyExt fname ∈ ve
  · simp only [if_pos hext]
    cases hd : decodeOk lib ve (FS.find fs0 (base ++ [cls, fname])) <;> simp [hd]
  · simp [hext]

theorem inner_mem_mono (lib : ImgLib) (ve : List String) (remove : Bool) (base : FPath)
    (cls : String) (fs0 : FS) (files : List String)
    (acc : List (String × String) × FS) {x : String × String} (hx : x ∈ acc.1) :
    x ∈ (files.foldl (processFile lib ve remove base cls fs0) acc).1 := by
  induction files generalizing acc with
  | nil => exact hx
  | cons f fl ih =>
    rw [List.foldl_cons]
    apply ih
    rw [processFile_eq]
    by_cases hf : flagged lib ve base cls f fs0 = true
    · rw [if_pos hf]
      exact List.mem_append_left _ hx
    · rw [if_neg hf]
      exact hx

theorem inner_mem_flagged (lib : ImgLib) (ve : List String) (remove : Bool) (base : FPath)
    (cls fname : String) (fs0 : FS)
    (hflag : flagged lib ve base cls fname fs0 = true) :
    ∀ (files : List String) (acc : List (String × String) × FS), fname ∈ files →
      (fname, cls) ∈ (files.foldl (processFile lib ve remove base cls fs0) acc).1 := by
  intro files
  induction files with
  | nil => intro acc hf; cases hf
  | cons g gl ih =>
    intro acc hf
    rw [List.foldl_cons]
    rcases List.mem_cons.mp hf with h | h
    · subst h
      apply inner_mem_mono
      rw [processFile_eq, if_pos hflag]
      exact List.mem_append_right _ (List.mem_singleton_self _)
    · exact ih _ h

theorem find_remove_none (fs : FS) (p q : FPath) (h : FS.find fs p = none) :
    FS.find (FS.remove fs q) p = none := by
  by_cases hpq : p = q
  · subst hpq
    exact FS.find_remove_self fs p
  · rw [FS.find_remove_ne fs hpq]
    exact h

theorem processFile_find_none (lib : ImgLib) (ve : List String) (remove : Bool)
    (base : FPath) (cls : String) (fs0 : FS) (acc : List (String × String) × FS)
    (fname : String) {p : FPath} (h : FS.find acc.2 p = none) :
    FS.find (processFile lib ve remove base cls fs0 acc fname).2 p = none := by
  rw [processFile_eq]
  by_cases hf : flagged lib ve base cls fname fs0 = true
  · rw [if_pos hf]
    by_cases hr : remove = true
    · rw [if_pos hr]
      exact find_remove_none _ _ _ h
    · rw [if_neg hr]
      exact h
  · rw [if_neg hf]
    exact h

theorem inner_fold_find_none (lib : ImgLib) (ve : List String) (remove : Bool)
    (base : FPath) (cls : String) (fs0 : FS) :
    ∀ (files : List String) (acc : List (String × String) × FS) {p : FPath},
      FS.find acc.2 p = none →
      FS.find ((files.foldl (processFile lib ve remove base cls fs0) acc)).2 p = none := by
  intro files
  induction files with
  | nil => intro acc p h; exact h
  | cons g gl ih =>
    intro acc p h
    rw [List.foldl_cons]
    exact ih _ (processFile_find_none lib ve remove base cls fs0 acc g h)

theorem inner_fold_removed (lib : ImgLib) (ve : List String) (base : FPath)
    (cls fname : String) (fs0 : FS)
    (hflag : flagged lib ve base cls fname fs0 = true) :
    ∀ (files : List String) (acc : List (String × String) × FS), fname ∈ files →
      FS.find ((files.foldl (processFile lib ve true base cls fs0) acc)).2
        (base ++ [cls, fname]) = none := by
  intro files
  induction files with
  | nil => intro acc hf; cases hf
  | cons g gl ih =>
    intro acc hf
    rw [List.foldl_cons]
    rcases List.mem_cons.mp hf with h | h
    · subst h
      apply inner_fold_find_none
      rw [processFile_eq, if_pos hflag, if_pos rfl]
      exact FS.find_remove_self _ _
    · exact ih _ h

theorem processFile_snd_dry (lib : ImgLib) (ve : List String) (base : FPath)
    (cls : String) (fs0 : FS) (acc : List (String × String) × FS) (fname : String) :
    (processFile lib ve false base cls fs0 acc fname).2 = acc.2 := by
  rw [processFile_eq]
  by_cases hf : flagged lib ve base cls fname fs0 = true
  · rw [if_pos hf, if_neg (Bool.false_ne_true)]
  · rw [if_neg hf]

theorem inner_fold_snd_dry (lib : ImgLib) (ve : List String) (base : FPath)
    (cls : String) (fs0 : FS) :
    ∀ (files : List String) (acc : List (String × String) × FS),
      (files.foldl (processFile lib ve false base cls fs0) acc).2 = acc.2 := by
  intro files
  induction files with
  | nil => intro acc; rfl
  | cons g gl ih =>
    intro acc
    rw [List.foldl_cons, ih, processFile_snd_dry]

theorem outer_fold_snd_dry (lib : ImgLib) (ve : List String) (base : FPath) (fs0 : FS) :
    ∀ (cl : List String) (acc : List (String × String) × FS),
      (cl.foldl (classStep lib ve false base fs0) acc).2 = acc.2 := by
  intro cl
  induction cl with
  | nil => intro acc; rfl
  | cons c cs ih =>
    intro acc
    rw [List.foldl_cons, ih]
    unfold classStep
    rw [inner_fold_snd_dry]

theorem validator_snd_dry (lib : ImgLib) (base : FPath) (ve : List String) (fs : FS) :
    (checks_and_remove_invalid_images lib base ve false fs).2 = fs := by
  unfold checks_and_remove_invalid_images
  rw [outer_fold_snd_dry]

theorem outer_mem_mono (lib : ImgLib) (ve : List String) (remove : Bool) (base : FPath)
    (fs0 : FS) :
    ∀ (cl : List String) (acc : List (String × String) × FS) {x : String × String},
      x ∈ acc.1 → x ∈ (cl.foldl (classStep lib ve remove base fs0) acc).1 := by
  intro cl
  induction cl with
  | nil => intro acc x hx; exact hx
  | cons c cs ih =>
    intro acc x hx
    rw [List.foldl_cons]
    apply ih
    unfold classStep
    exact inner_mem_mono lib ve remove base c fs0 _ _ hx

theorem outer_mem_flagged (lib : ImgLib) (ve : List String) (remove : Bool) (base : FPath)
    (fs0 : FS) (cls fname : String)
    (hflag : flagged lib ve base cls fname fs0 = true) :
    ∀ (cl : List String) (acc : List (String × String) × FS), cls ∈ cl →
      fname ∈ listdir fs0 (base ++ [cls]) →
      (fname, cls) ∈ (cl.foldl (classStep lib ve remove base fs0) acc).1 := by
  intro cl
  induction cl with
  | nil => intro acc hc; cases hc
  | cons c cs ih =>
    intro acc hc hfn
    rw [List.foldl_cons]
    rcases List.mem_cons.mp hc with h | h
    · subst h
      apply outer_mem_mono
      unfold classStep
      exact inner_mem_flagged lib ve remove base cls fname fs0 hflag _ _ hfn
    · exact ih _ h hfn

theorem outer_fold_find_none (lib : ImgLib) (ve : List String) (remove : Bool)
    (base : FPath) (fs0 : FS) :
    ∀ (cl : List String) (acc : List (String × String) × FS) {p : FPath},
      FS.find acc.2 p = none →
      FS.find ((cl.foldl (classStep lib ve remove base fs0) acc)).2 p = none := by
  intro cl
  induction cl with
  | nil => intro acc p h; exact h
  | cons c cs ih =>
    intro acc p h
    rw [List.foldl_cons]
    apply ih
    unfold classStep
    exact inner_fold_find_none lib ve remove base c fs0 _ _ h

theorem outer_fold_removed (lib : ImgLib) (ve : List String) (base : FPath) (fs0 : FS)
    (cls fname : String) (hflag : flagged lib ve base cls fname fs0 = true) :
    ∀ (cl : List String) (acc : List (String × String) × FS), cls ∈ cl →
      fname ∈ listdir fs0 (base ++ [cls]) →
      FS.find ((cl.foldl (classStep lib ve true base fs0) acc)).2
        (base ++ [cls, fname]) = none := by
  intro cl
  induction cl with
  | nil => intro acc hc; cases hc
  | cons c cs ih =>
    intro acc hc hfn
    rw [List.foldl_cons]
    rcases List.mem_cons.mp hc with h | h
    · subst h
      apply outer_fold_find_none
      unfold classStep
      exact inner_fold_removed lib ve base cls fname fs0 hflag _ _ hfn
    · exact ih _ h hfn

theorem inner_fold_mem_src (lib : ImgLib) (ve : List String) (remove : Bool) (base : FPath)
    (cls : String) (fs0 : FS) :
    ∀ (files : List String) (acc : List (String × String) × FS) {x : String × String},
      x ∈ (files.foldl (processFile lib ve remove base cls fs0) acc).1 →
      x ∈ acc.1 ∨ x.2 = cls := by
  intro files
  induction files with
  | nil => intro acc x hx; exact Or.inl hx
  | cons g gl ih =>
    intro acc x hx
    rw [List.foldl_cons] at hx
    rcases ih _ hx with h | h
    · rw [processFile_eq] at h
      by_cases hf : flagged lib ve base cls g fs0 = true
      · rw [if_pos hf] at h
        rcases List.mem_append.mp h with h2 | h2
        · exact Or.inl h2
        · right
          rw [List.mem_singleton.mp h2]
      · rw [if_neg hf] at h
        exact Or.inl h
    · exact Or.inr h

theorem outer_fold_mem_dir (lib : ImgLib) (ve : List String) (remove : Bool) (base : FPath)
    (fs0 : FS) :
    ∀ (cl : List String), (∀ c ∈ cl, isdir fs0 (base ++ [c]) = true) →
      ∀ (acc : List (String × String) × FS),
        (∀ x ∈ acc.1, isdir fs0 (base ++ [x.2]) = true) →
        ∀ x ∈ (cl.foldl (classStep lib ve remove base fs0) acc).1,
          isdir fs0 (base ++ [x.2]) = true := by
  intro cl
  induction cl with
  | nil => intro _ acc hacc x hx; exact hacc x hx
  | cons c cs ih =>
    intro hcl acc hacc x hx
    rw [List.foldl_cons] at hx
    refine ih (fun d hd => hcl d (List.mem_cons_of_mem _ hd)) _ ?_ x hx
    intro y hy
    unfold classStep at hy
    rcases inner_fold_mem_src lib ve remove base c fs0 _ _ hy with h | h
    · exact hacc y h
    · rw [h]
      exact hcl c (List.mem_cons_self _ _)

/-! ### Claim theorems -/

/-- Claim C1: for every class subdirectory of the source tree, the train
list and the test list produced by the partitioner split are disjoint and
their union is exactly the class's file set, for every admissible shuffle
(any reordering of the listing). -/
theorem split_class_partition (shuffle : String → List String → List String)
    (fs : FS) (source_dir : FPath) (sub : String) (frac : ℚ)
    (hper : ∀ l, List.Perm (shuffle sub l) l) :
    (∀ x, x ∈ (classTrainTest shuffle sub (listdir fs (source_dir ++ [sub])) frac).1 →
        x ∈ (classTrainTest shuffle sub (listdir fs (source_dir ++ [sub])) frac).2 → False) ∧
    (∀ x, (x ∈ (classTrainTest shuffle sub (listdir fs (source_dir ++ [sub])) frac).1 ∨
        x ∈ (classTrainTest shuffle sub (listdir fs (source_dir ++ [sub])) frac).2) ↔
      x ∈ listdir fs (source_dir ++ [sub])) :=
  classTrainTest_partition shuffle sub _ frac (listdir_nodup _ _) (hper _)

/-- Witness for claim C1 at a concrete one-class tree, with the identity
shuffle. -/
theorem split_class_partition_witness :
    (∀ l : List String, List.Perm (idShuffle ("c") l) l) ∧
    ((∀ x, x ∈ (classTrainTest idShuffle ("c") (listdir fsOne (["src"] ++ ["c"])) (1/2)).1 →
        x ∈ (classTrainTest idShuffle ("c") (listdir fsOne (["src"] ++ ["c"])) (1/2)).2 →
          False) ∧
     (∀ x, (x ∈ (classTrainTest idShuffle ("c") (listdir fsOne (["src"] ++ ["c"])) (1/2)).1 ∨
        x ∈ (classTrainTest idShuffle ("c") (listdir fsOne (["src"] ++ ["c"])) (1/2)).2) ↔
      x ∈ listdir fsOne (["src"] ++ ["c"]))) :=
  ⟨fun l => List.Perm.refl l,
    split_class_partition idShuffle fsOne ["src"] ("c") (1/2) (fun l => List.Perm.refl l)⟩

/-- Witness for claim C2 at a concrete three-file class with the boundary
ratio 1. -/
theorem split_class_train_count_witness :
    List.Perm (idShuffle ("c") ["a", "b", "d"]) ["a", "b", "d"] ∧
    ((0:ℚ) ≤ 1 ∧ (1:ℚ) ≤ 1) ∧
    ((classTrainTest idShuffle ("c") ["a", "b", "d"] 1).1.length
        = (⌊((["a", "b", "d"] : List String).length : ℚ) * 1⌋).toNat ∧
     (classTrainTest idShuffle ("c") ["a", "b", "d"] 1).2.length
        = (["a", "b", "d"] : List String).length
            - (⌊((["a", "b", "d"] : List String).length : ℚ) * 1⌋).toNat) :=
  ⟨List.Perm.refl _, ⟨by decide, by decide⟩,
    split_class_train_count idShuffle ("c") ["a", "b", "d"] 1 (List.Perm.refl _)
      (by decide) (by decide)⟩

/-- Claim C7: after partitioning (which always copies), every file under the
source root keeps its exact content at its original path, provided the
destination roots do not alias the source root. -/
theorem split_preserves_source_content (shuffle : String → List String → List String)
    (source_dir train_dir test_dir : FPath) (frac : ℚ) (fs : FS)
    (h1 : FPathIncomp source_dir train_dir) (h2 : FPathIncomp source_dir test_dir) :
    ∀ p, isPre source_dir p = true →
      FS.find (split_image_data shuffle source_dir train_dir test_dir frac fs) p
        = FS.find fs p := by
  intro p hp
  unfold split_image_data
  exact split_fold_keep shuffle source_dir train_dir test_dir frac h1 h2 _ fs hp

/-- Witness for claim C7 at a concrete one-class tree. -/
theorem split_preserves_source_content_witness :
    FPathIncomp ["src"] ["tr"] ∧ FPathIncomp ["src"] ["te"] ∧
    (∀ p, isPre ["src"] p = true →
      FS.find (split_image_data idShuffle ["src"] ["tr"] ["te"] 1 fsOne) p
        = FS.find fsOne p) :=
  ⟨⟨by decide, by decide⟩, ⟨by decide, by decide⟩,
    split_preserves_source_content idShuffle ["src"] ["tr"] ["te"] 1 fsOne
      ⟨by decide, by decide⟩ ⟨by decide, by decide⟩⟩

/-- Counterexample to claim C4: `split_image_data` has no transfer-mode
parameter and always copies, so after a run that transfers `f.jpg` to the
train tree the source class directory still contains `f.jpg` — there is no
caller-selectable move semantics that empties the source. -/
theorem transfer_leaves_source_file :
    FS.find (split_image_data idShuffle ["src"] ["tr"] ["te"] 1 fsOne) ["tr", "c", "f.jpg"]
      = some ("X") ∧
    FS.find (split_image_data idShuffle ["src"] ["tr"] ["te"] 1 fsOne) ["src", "c", "f.jpg"]
      = some ("X") := by
  have hct : ∀ sub files, classTrainTest idShuffle sub files 1 = (files, []) := by
    intro sub files
    simp [classTrainTest, idShuffle, pyInt, pySliceTo, pySliceFrom]
  have hld : listdir fsOne ["src"] = ["c"] := by decide
  have hdir : isdir fsOne (["src"] ++ ["c"]) = true := by decide
  have hld2 : listdir fsOne (["src"] ++ ["c"]) = ["f.jpg"] := by decide
  constructor <;>
  · simp only [split_image_data, hld, List.foldl_cons, List.foldl_nil, splitStep, hdir,
      if_true, hld2, hct]
    decide

/-- Claim C4 (amended): the partitioner offers only copy semantics — it has
no transfer-mode parameter — and after partitioning the source class
directories still contain every one of their files. -/
theorem split_copy_only_source_retained (shuffle : String → List String → List String)
    (source_dir train_dir test_dir : FPath) (frac : ℚ) (fs : FS)
    (h1 : FPathIncomp source_dir train_dir) (h2 : FPathIncomp source_dir test_dir) :
    ∀ p, isPre source_dir p = true → p ∈ FS.paths fs →
      p ∈ FS.paths (split_image_data shuffle source_dir train_dir test_dir frac fs) := by
  intro p hp hmem
  have hfind :
      FS.find (split_image_data shuffle source_dir train_dir test_dir frac fs) p
        = FS.find fs p := by
    unfold split_image_data
    exact split_fold_keep shuffle source_dir train_dir test_dir frac h1 h2 _ fs hp
  by_contra hnot
  have hnone := (FS.find_eq_none_iff _ _).mpr hnot
  rw [hfind] at hnone
  exact ((FS.find_eq_none_iff _ _).mp hnone) hmem

/-- Witness for the amended claim C4 at a concrete one-class tree. -/
theorem split_copy_only_source_retained_witness :
    FPathIncomp ["src"] ["tr"] ∧ FPathIncomp ["src"] ["te"] ∧
    (∀ p, isPre ["src"] p = true → p ∈ FS.paths fsOne →
      p ∈ FS.paths (split_image_data idShuffle ["src"] ["tr"] ["te"] 1 fsOne)) :=
  ⟨⟨by decide, by decide⟩, ⟨by decide, by decide⟩,
    split_copy_only_source_retained idShuffle ["src"] ["tr"] ["te"] 1 fsOne
      ⟨by decide, by decide⟩ ⟨by decide, by decide⟩⟩

/-- Counterexample to claim C5: a `.ipynb_checkpoints` directory at the
dataset root is scanned as an ordinary class by the validator — its file is
reported — instead of being ignored as a reserved entry. -/
theorem checkpoint_dir_scanned :
    isdir fsCkpt (["root"] ++ [".ipynb_checkpoints"]) = true ∧
    (checks_and_remove_invalid_images libFail ["root"] defaultExts false fsCkpt).1
      = [("a.jpg", ".ipynb_checkpoints")] := by
  constructor
  · decide
  · decide

theorem isPre_trans {a b c : FPath} (hab : isPre a b = true) (hbc : isPre b c = true) :
    isPre a c = true := by
  induction a generalizing b c with
  | nil => rfl
  | cons x xs ih =>
    cases b with
    | nil => simp [isPre] at hab
    | cons y ys =>
      cases c with
      | nil => simp [isPre] at hbc
      | cons z zs =>
        simp only [isPre, Bool.and_eq_true, decide_eq_true_eq] at hab hbc ⊢
        exact ⟨hab.1.trans hbc.1, ih hab.2 hbc.2⟩

theorem isPre_append_cancel (d a b : FPath) : isPre (d ++ a) (d ++ b) = isPre a b := by
  induction d with
  | nil => rfl
  | cons x xs ih => simp [isPre, ih]

theorem any_remove_eq (fs : FS) (f : FPath × String → Bool) {w : FPath}
    (hw : ∀ c, f (w, c) = false) : List.any (FS.remove fs w) f = List.any fs f := by
  induction fs with
  | nil => rfl
  | cons e es ih =>
    by_cases he : e.1 = w
    · have hee : e = (w, e.2) := by
        rw [← he]
      have hfe : f e = false := by
        rw [hee]
        exact hw e.2
      rw [show FS.remove (e :: es) w = FS.remove es w from by simp [FS.remove, he], ih,
        List.any_cons, hfe]
      simp
    · rw [show FS.remove (e :: es) w = e :: FS.remove es w from by simp [FS.remove, he],
        List.any_cons, List.any_cons, ih]

theorem isdir_remove_out (fs : FS) {q w : FPath} (h : isPre q w = false) :
    isdir (FS.remove fs w) q = isdir fs q := by
  unfold isdir
  exact any_remove_eq fs _ (fun c => by simp [h])

theorem isdir_insert_out (fs : FS) {q w : FPath} (c : String) (h : isPre q w = false) :
    isdir (FS.insert fs w c) q = isdir fs q := by
  unfold FS.insert isdir
  rw [List.any_append, any_remove_eq fs _ (fun c2 => by simp [h])]
  simp [h]

theorem isdir_copyFile_out (fs : FS) {src dst q : FPath} (h : isPre q dst = false) :
    isdir (copyFile fs src dst) q = isdir fs q := by
  unfold copyFile
  cases FS.find fs src with
  | none => rfl
  | some c => exact isdir_insert_out fs c h

theorem fold_copy_isdir (src dst : FPath) (sub : String) (l : List String) (fsa : FS)
    {q : FPath} (hd : ∀ f, isPre q (dst ++ [sub, f]) = false) :
    isdir (l.foldl (fun a f => copyFile a (src ++ [sub, f]) (dst ++ [sub, f])) fsa) q
      = isdir fsa q := by
  induction l generalizing fsa with
  | nil => rfl
  | cons f fl ih =>
    rw [List.foldl_cons, ih, isdir_copyFile_out _ (hd f)]

theorem splitStep_keeps_isdir (shuffle : String → List String → List String)
    (source_dir train_dir test_dir : FPath) (frac : ℚ)
    (h1 : FPathIncomp source_dir train_dir) (h2 : FPathIncomp source_dir test_dir)
    (fsa : FS) (sub : String) {q : FPath} (hq : isPre source_dir q = true) :
    isdir (splitStep shuffle source_dir train_dir test_dir frac fsa sub) q
      = isdir fsa q := by
  have hdt : ∀ dst, FPathIncomp source_dir dst → ∀ f, isPre q (dst ++ [sub, f]) = false := by
    intro dst hinc f
    cases hw : isPre q (dst ++ [sub, f]) with
    | false => rfl
    | true =>
      exfalso
      have hsw := isPre_trans hq hw
      rw [isPre_pair_false hinc sub f] at hsw
      exact Bool.noConfusion hsw
  unfold splitStep
  by_cases hdir : isdir fsa (source_dir ++ [sub]) = true
  · rw [if_pos hdir]
    by_cases hlen : (listdir fsa (source_dir ++ [sub])).length = 0
    · rw [if_pos hlen]
    · rw [if_neg hlen]
      rw [fold_copy_isdir _ _ _ _ _ (fun f => hdt test_dir h2 f)]
      rw [fold_copy_isdir _ _ _ _ _ (fun f => hdt train_dir h1 f)]
  · rw [if_neg hdir]

theorem fold_copy_find_ne (src dst : FPath) (sub : String) (l : List String) (fsa : FS)
    {p : FPath} (hne : ∀ f, p ≠ dst ++ [sub, f]) :
    FS.find (l.foldl (fun a f => copyFile a (src ++ [sub, f]) (dst ++ [sub, f])) fsa) p
      = FS.find fsa p := by
  induction l generalizing fsa with
  | nil => rfl
  | cons f fl ih =>
    rw [List.foldl_cons, ih, find_copyFile_ne _ (hne f)]

theorem isPre_two_roots_false {d1 d2 : FPath} (h3 : FPathIncomp d1 d2) (n sub f : String) :
    isPre (d1 ++ [n]) (d2 ++ [sub, f]) = false := by
  cases hw : isPre (d1 ++ [n]) (d2 ++ [sub, f]) with
  | false => rfl
  | true =>
    exfalso
    have hd1 : isPre d1 (d2 ++ [sub, f]) = true :=
      isPre_trans (isPre_append_self d1 [n]) hw
    have hd2 : isPre d2 (d2 ++ [sub, f]) = true := isPre_append_self d2 [sub, f]
    rcases Nat.le_total d1.length d2.length with hl | hl
    · have hc := isPre_of_le hd1 hd2 hl
      rw [h3.1] at hc
      exact Bool.noConfusion hc
    · have hc := isPre_of_le hd2 hd1 hl
      rw [h3.2] at hc
      exact Bool.noConfusion hc

theorem isPre_same_root {d : FPath} {n sub f : String}
    (h : isPre (d ++ [n]) (d ++ [sub, f]) = true) : n = sub := by
  rw [isPre_append_cancel] at h
  simp [isPre] at h
  exact h

theorem splitStep_nondir_frame (shuffle : String → List String → List String)
    (source_dir train_dir test_dir : FPath) (frac : ℚ) (n : String)
    (h3 : FPathIncomp train_dir test_dir) (acc : FS) (sub : String)
    (hq : isdir acc (source_dir ++ [n]) = false) {p : FPath}
    (hp : isPre (train_dir ++ [n]) p = true ∨ isPre (test_dir ++ [n]) p = true) :
    FS.find (splitStep shuffle source_dir train_dir test_dir frac acc sub) p
      = FS.find acc p := by
  unfold splitStep
  by_cases hdir : isdir acc (source_dir ++ [sub]) = true
  · rw [if_pos hdir]
    by_cases hlen : (listdir acc (source_dir ++ [sub])).length = 0
    · rw [if_pos hlen]
    · rw [if_neg hlen]
      have hsubn : ¬ n = sub := by
        intro he
        rw [← he] at hdir
        rw [hq] at hdir
        exact Bool.noConfusion hdir
      have hne_train : ∀ f, p ≠ train_dir ++ [sub, f] := by
        intro f heq
        rcases hp with hp1 | hp2
        · rw [heq] at hp1
          exact hsubn (isPre_same_root hp1)
        · rw [heq] at hp2
          rw [isPre_two_roots_false ⟨h3.2, h3.1⟩ n sub f] at hp2
          exact Bool.noConfusion hp2
      have hne_test : ∀ f, p ≠ test_dir ++ [sub, f] := by
        intro f heq
        rcases hp with hp1 | hp2
        · rw [heq] at hp1
          rw [isPre_two_roots_false h3 n sub f] at hp1
          exact Bool.noConfusion hp1
        · rw [heq] at hp2
          exact hsubn (isPre_same_root hp2)
      rw [fold_copy_find_ne _ _ _ _ _ hne_test, fold_copy_find_ne _ _ _ _ _ hne_train]
  · rw [if_neg hdir]

theorem split_fold_nondir (shuffle : String → List String → List String)
    (source_dir train_dir test_dir : FPath) (frac : ℚ) (n : String)
    (h1 : FPathIncomp source_dir train_dir) (h2 : FPathIncomp source_dir test_dir)
    (h3 : FPathIncomp train_dir test_dir) :
    ∀ (subs : List String) (acc : FS), isdir acc (source_dir ++ [n]) = false →
      ∀ {p : FPath},
        (isPre (train_dir ++ [n]) p = true ∨ isPre (test_dir ++ [n]) p = true) →
        FS.find (subs.foldl (splitStep shuffle source_dir train_dir test_dir frac) acc) p
          = FS.find acc p := by
  intro subs
  induction subs with
  | nil =>
    intro acc hq p hp
    rfl
  | cons s ss ih =>
    intro acc hq p hp
    rw [List.foldl_cons]
    have hq2 : isdir (splitStep shuffle source_dir train_dir test_dir frac acc s)
        (source_dir ++ [n]) = false := by
      rw [splitStep_keeps_isdir shuffle source_dir train_dir test_dir frac h1 h2 acc s
        (isPre_append_self source_dir [n])]
      exact hq
    rw [ih _ hq2 hp]
    exact splitStep_nondir_frame shuffle source_dir train_dir test_dir frac n h3 acc s hq hp

/-- Claim C5 (amended): non-directory entries at the dataset root are never
treated as classes, on any tree — every validator report entry names a root
directory, the partitioner's loop body leaves the tree untouched at a
non-directory entry, and over a whole partitioner run (with destination
roots that do not alias the source root or each other) no file is ever
placed under `train_dir/<n>` or `test_dir/<n>` for a non-directory root
entry `n` — but reserved directory names such as `.ipynb_checkpoints` are
not excluded. -/
theorem root_non_dirs_ignored (lib : ImgLib) (base : FPath) (ve : List String)
    (remove : Bool) (fs : FS) (shuffle : String → List String → List String)
    (source_dir train_dir test_dir : FPath) (frac : ℚ) (fs2 : FS) (n : String)
    (h1 : FPathIncomp source_dir train_dir) (h2 : FPathIncomp source_dir test_dir)
    (h3 : FPathIncomp train_dir test_dir)
    (hnd : isdir fs2 (source_dir ++ [n]) = false) :
    (∀ x ∈ (checks_and_remove_invalid_images lib base ve remove fs).1,
      isdir fs (base ++ [x.2]) = true) ∧
    splitStep shuffle source_dir train_dir test_dir frac fs2 n = fs2 ∧
    (∀ p, (isPre (train_dir ++ [n]) p = true ∨ isPre (test_dir ++ [n]) p = true) →
      FS.find (split_image_data shuffle source_dir train_dir test_dir frac fs2) p
        = FS.find fs2 p) := by
  refine ⟨?_, ?_, ?_⟩
  · intro x hx
    unfold checks_and_remove_invalid_images at hx
    refine outer_fold_mem_dir lib (ve.map strLower) remove base fs _ ?_ _ ?_ x hx
    · intro c hc
      exact (List.mem_filter.mp hc).2
    · intro y hy
      exact absurd hy (List.not_mem_nil y)
  · unfold splitStep
    rw [hnd, if_neg (Bool.false_ne_true)]
  · intro p hp
    unfold split_image_data
    exact split_fold_nondir shuffle source_dir train_dir test_dir frac n h1 h2 h3 _ fs2
      hnd hp

/-- Witness for the amended claim C5: a tree holding one real class next to
a stray non-directory entry `note.txt`, plus the checkpoint tree for the
validator conjunct. -/
theorem root_non_dirs_ignored_witness :
    (FPathIncomp ["r"] ["tr"] ∧ FPathIncomp ["r"] ["te"] ∧ FPathIncomp ["tr"] ["te"] ∧
      isdir fsMix (["r"] ++ ["note.txt"]) = false) ∧
    ((∀ x ∈ (checks_and_remove_invalid_images libFail ["root"] defaultExts false fsCkpt).1,
        isdir fsCkpt (["root"] ++ [x.2]) = true) ∧
      splitStep idShuffle ["r"] ["tr"] ["te"] 1 fsMix ("note.txt") = fsMix ∧
      (∀ p, (isPre (["tr"] ++ ["note.txt"]) p = true ∨
          isPre (["te"] ++ ["note.txt"]) p = true) →
        FS.find (split_image_data idShuffle ["r"] ["tr"] ["te"] 1 fsMix) p
          = FS.find fsMix p)) :=
  ⟨⟨⟨by decide, by decide⟩, ⟨by decide, by decide⟩, ⟨by decide, by decide⟩, by decide⟩,
    root_non_dirs_ignored libFail ["root"] defaultExts false fsCkpt idShuffle
      ["r"] ["tr"] ["te"] 1 fsMix ("note.txt")
      ⟨by decide, by decide⟩ ⟨by decide, by decide⟩ ⟨by decide, by decide⟩ (by decide)⟩

/-- Claim C6: a file inside a class folder whose extension (compared
case-insensitively) is not in the valid set — such as `sample.txt` — is
always recorded as `(filename, class)` regardless of its content; with
remove=True the file is deleted from the tree, and with remove=False the
tree is left untouched. -/
theorem wrong_extension_flagged (lib : ImgLib) (base : FPath) (ve : List String)
    (remove : Bool) (fs : FS) (cls fname : String)
    (hcls : cls ∈ listdir fs base) (hdir : isdir fs (base ++ [cls]) = true)
    (hfn : fname ∈ listdir fs (base ++ [cls]))
    (hext : pyExt fname ∉ ve.map strLower) :
    (fname, cls) ∈ (checks_and_remove_invalid_images lib base ve remove fs).1 ∧
    (remove = true →
      FS.find (checks_and_remove_invalid_images lib base ve remove fs).2
        (base ++ [cls, fname]) = none) ∧
    (remove = false → (checks_and_remove_invalid_images lib base ve remove fs).2 = fs) := by
  have hflag : flagged lib (ve.map strLower) base cls fname fs = true := by
    unfold flagged
    rw [if_neg hext]
  have hclsf : cls ∈ (listdir fs base).filter (fun d => isdir fs (base ++ [d])) :=
    List.mem_filter.mpr ⟨hcls, hdir⟩
  refine ⟨?_, ?_, ?_⟩
  · unfold checks_and_remove_invalid_images
    exact outer_mem_flagged lib (ve.map strLower) remove base fs cls fname hflag _ _ hclsf hfn
  · intro hr
    subst hr
    unfold checks_and_remove_invalid_images
    exact outer_fold_removed lib (ve.map strLower) base fs cls fname hflag _ _ hclsf hfn
  · intro hr
    subst hr
    exact validator_snd_dry lib base ve fs

/-- Witness for claim C6: a `sample.txt` file inside a class folder, with
remove=True. -/
theorem wrong_extension_flagged_witness :
    (("c") ∈ listdir fsTxt ["d"] ∧ isdir fsTxt (["d"] ++ ["c"]) = true ∧
      ("sample.txt") ∈ listdir fsTxt (["d"] ++ ["c"]) ∧
      pyExt ("sample.txt") ∉ defaultExts.map strLower) ∧
    (("sample.txt", "c")
        ∈ (checks_and_remove_invalid_images libFail ["d"] defaultExts true fsTxt).1 ∧
      (true = true →
        FS.find (checks_and_remove_invalid_images libFail ["d"] defaultExts true fsTxt).2
          (["d"] ++ ["c", "sample.txt"]) = none) ∧
      (true = false →
        (checks_and_remove_invalid_images libFail ["d"] defaultExts true fsTxt).2 = fsTxt)) :=
  ⟨⟨by decide, by decide, by decide, by decide⟩,
    wrong_extension_flagged libFail ["d"] defaultExts true fsTxt ("c") ("sample.txt")
      (by decide) (by decide) (by decide) (by decide)⟩

/-- Counterexample to claim C3: the file `x.jpg` decodes with intrinsic
format png, which differs from its claimed extension jpg, yet the validator
reports nothing — the source compares the decoded format against the whole
valid-extension set, not against the file's own extension. -/
theorem format_mismatch_not_flagged :
    libPng.openFormat ("PNGDATA") = some ("PNG") ∧
    strLower ("PNG") = "png" ∧
    pyStrip (pyExt ("x.jpg")) = "jpg" ∧
    (checks_and_remove_invalid_images libPng ["b"] defaultExts false fsPng).1 = [] := by
  refine ⟨rfl, by decide, by decide, by decide⟩

theorem decodeOk_open_none (lib : ImgLib) (ve : List String) {c : String}
    (h : lib.openFormat c = none) : decodeOk lib ve (some c) = false := by
  have hrfl : decodeOk lib ve (some c)
      = (match lib.openFormat c with
          | none => false
          | some fmt => decide (strLower fmt ∈ ve.map pyStrip) && lib.verify c) := rfl
  rw [hrfl, h]

theorem decodeOk_open_some (lib : ImgLib) (ve : List String) {c fmt : String}
    (h : lib.openFormat c = some fmt) :
    decodeOk lib ve (some c)
      = (decide (strLower fmt ∈ ve.map pyStrip) && lib.verify c) := by
  have hrfl : decodeOk lib ve (some c)
      = (match lib.openFormat c with
          | none => false
          | some fmt => decide (strLower fmt ∈ ve.map pyStrip) && lib.verify c) := rfl
  rw [hrfl, h]

/-- Claim C3 (amended): for every examined file with a valid extension, if
the decoded image's intrinsic format (lowercased) is not among the
dot-stripped members of the valid extension set, the validator records the
file as invalid and deletes it when remove is set. -/
theorem format_not_in_valid_set_flagged (lib : ImgLib) (base : FPath) (ve : List String)
    (remove : Bool) (fs : FS) (cls fname c fmt : String)
    (hcls : cls ∈ listdir fs base) (hdir : isdir fs (base ++ [cls]) = true)
    (hfn : fname ∈ listdir fs (base ++ [cls]))
    (hext : pyExt fname ∈ ve.map strLower)
    (hc : FS.find fs (base ++ [cls, fname]) = some c)
    (hfmt : lib.openFormat c = some fmt)
    (hnot : strLower fmt ∉ (ve.map strLower).map pyStrip) :
    (fname, cls) ∈ (checks_and_remove_invalid_images lib base ve remove fs).1 ∧
    (remove = true →
      FS.find (checks_and_remove_invalid_images lib base ve remove fs).2
        (base ++ [cls, fname]) = none) := by
  have hflag : flagged lib (ve.map strLower) base cls fname fs = true := by
    unfold flagged
    rw [if_pos hext, hc, decodeOk_open_some lib _ hfmt, decide_eq_false hnot]
    rfl
  have hclsf : cls ∈ (listdir fs base).filter (fun d => isdir fs (base ++ [d])) :=
    List.mem_filter.mpr ⟨hcls, hdir⟩
  refine ⟨?_, ?_⟩
  · unfold checks_and_remove_invalid_images
    exact outer_mem_flagged lib (ve.map strLower) remove base fs cls fname hflag _ _ hclsf hfn
  · intro hr
    subst hr
    unfold checks_and_remove_invalid_images
    exact outer_fold_removed lib (ve.map strLower) base fs cls fname hflag _ _ hclsf hfn

/-- Witness for the amended claim C3: a `.png` file whose decoded format is
TIFF, with remove=True. -/
theorem format_not_in_valid_set_flagged_witness :
    (("cats") ∈ listdir fsTiff ["d3"] ∧ isdir fsTiff (["d3"] ++ ["cats"]) = true ∧
      ("im.png") ∈ listdir fsTiff (["d3"] ++ ["cats"]) ∧
      pyExt ("im.png") ∈ defaultExts.map strLower ∧
      FS.find fsTiff (["d3"] ++ ["cats", "im.png"]) = some ("TDATA") ∧
      libTiff.openFormat ("TDATA") = some ("TIFF") ∧
      strLower ("TIFF") ∉ (defaultExts.map strLower).map pyStrip) ∧
    (("im.png", "cats")
        ∈ (checks_and_remove_invalid_images libTiff ["d3"] defaultExts true fsTiff).1 ∧
      (true = true →
        FS.find (checks_and_remove_invalid_images libTiff ["d3"] defaultExts true fsTiff).2
          (["d3"] ++ ["cats", "im.png"]) = none)) :=
  ⟨⟨by decide, by decide, by decide, by decide, by decide, rfl, by decide⟩,
    format_not_in_valid_set_flagged libTiff ["d3"] defaultExts true fsTiff
      ("cats") ("im.png") ("TDATA") ("TIFF")
      (by decide) (by decide) (by decide) (by decide) (by decide) rfl (by decide)⟩

/-- Claim C9: per-file decode and verification errors are converted into
report entries, never raised — an examined valid-extension file whose open
raises or whose verification fails always appears in the returned invalid
list (the embedding is a total function, so the list is returned on every
scan). -/
theorem decode_errors_reported (lib : ImgLib) (base : FPath) (ve : List String)
    (remove : Bool) (fs : FS) (cls fname c : String)
    (hcls : cls ∈ listdir fs base) (hdir : isdir fs (base ++ [cls]) = true)
    (hfn : fname ∈ listdir fs (base ++ [cls]))
    (hext : pyExt fname ∈ ve.map strLower)
    (hc : FS.find fs (base ++ [cls, fname]) = some c)
    (herr : lib.openFormat c = none ∨ lib.verify c = false) :
    (fname, cls) ∈ (checks_and_remove_invalid_images lib base ve remove fs).1 := by
  have hflag : flagged lib (ve.map strLower) base cls fname fs = true := by
    unfold flagged
    rw [if_pos hext, hc]
    rcases herr with h | h
    · rw [decodeOk_open_none lib _ h]
      rfl
    · cases hof : lib.openFormat c with
      | none =>
        rw [decodeOk_open_none lib _ hof]
        rfl
      | some fmt =>
        rw [decodeOk_open_some lib _ hof, h]
        simp
  have hclsf : cls ∈ (listdir fs base).filter (fun d => isdir fs (base ++ [d])) :=
    List.mem_filter.mpr ⟨hcls, hdir⟩
  unfold checks_and_remove_invalid_images
  exact outer_mem_flagged lib (ve.map strLower) remove base fs cls fname hflag _ _ hclsf hfn

/-- Witness for claim C9: a `.jpg` file whose open raises. -/
theorem decode_errors_reported_witness :
    (("dogs") ∈ listdir fsJpg ["d2"] ∧ isdir fsJpg (["d2"] ++ ["dogs"]) = true ∧
      ("pic.jpg") ∈ listdir fsJpg (["d2"] ++ ["dogs"]) ∧
      pyExt ("pic.jpg") ∈ defaultExts.map strLower ∧
      FS.find fsJpg (["d2"] ++ ["dogs", "pic.jpg"]) = some ("CORRUPT") ∧
      libFail.openFormat ("CORRUPT") = none) ∧
    ("pic.jpg", "dogs")
      ∈ (checks_and_remove_invalid_images libFail ["d2"] defaultExts false fsJpg).1 :=
  ⟨⟨by decide, by decide, by decide, by decide, by decide, rfl⟩,
    decode_errors_reported libFail ["d2"] defaultExts false fsJpg ("dogs") ("pic.jpg")
      ("CORRUPT") (by decide) (by decide) (by decide) (by decide) (by decide) (Or.inl rfl)⟩

/-- Claim C8: the dry-run validator is idempotent — running it twice with
remove=False on the resulting (unchanged) tree yields the same invalid
entries, compared as sets. -/
theorem validator_dry_run_idempotent (lib : ImgLib) (base : FPath) (ve : List String)
    (fs : FS) :
    ∀ x, x ∈ (checks_and_remove_invalid_images lib base ve false fs).1 ↔
      x ∈ (checks_and_remove_invalid_images lib base ve false
        ((checks_and_remove_invalid_images lib base ve false fs).2)).1 := by
  rw [validator_snd_dry]
  intro x
  rfl

/-- Claim C10: the validator never mutates the caller's `valid_extensions`
set object — the call hands the argument object back with its contents
untouched, and its result is the pure function of those contents (the
lowercase normalization on line 155 builds a fresh set). -/
theorem caller_ext_set_unchanged (lib : ImgLib) (base : FPath) (s : PySet)
    (remove : Bool) (fs : FS) :
    (checks_with_argObj lib base s remove fs).2 = s ∧
    (checks_with_argObj lib base s remove fs).1
      = checks_and_remove_invalid_images lib base s.elems remove fs :=
  ⟨rfl, rfl⟩
